import Mathlib

/-!
Shallow embedding of the matching and arbitrage-detection engine of the
arb-scanner dashboard (source: `src/unnamed/part_000`, the canonical
N-platform implementation; the design notes of the specification treat the
older two-platform variant in `src/app/api/scan/route.ts` as superseded by
this one).

Strings are embedded as `List Char`; JavaScript numbers are embedded as `ℚ`;
a JavaScript `Set` is embedded as a duplicate-free list in insertion order.
Regular-expression operations of the source are embedded as explicit
character-level scanners with the same semantics on the strings they are
applied to.
-/

namespace ArbScan

/-- Character class of the regex `\w`, i.e. `[A-Za-z0-9_]`. -/
def isWordChar (c : Char) : Bool :=
  (97 ≤ c.toNat && c.toNat ≤ 122) || (65 ≤ c.toNat && c.toNat ≤ 90) ||
  (48 ≤ c.toNat && c.toNat ≤ 57) || c.toNat == 95

/-- Character class of the regex `\s` (JavaScript whitespace: tab through
carriage return, space, NBSP, ogham space, the Unicode space range
U+2000–U+200A, line/paragraph separators, narrow NBSP, math space,
ideographic space and BOM). -/
def isSpaceChar (c : Char) : Bool :=
  c.toNat == 32 || (9 ≤ c.toNat && c.toNat ≤ 13) || c.toNat == 160 ||
  c.toNat == 5760 || (8192 ≤ c.toNat && c.toNat ≤ 8202) || c.toNat == 8232 ||
  c.toNat == 8233 || c.toNat == 8239 || c.toNat == 8287 || c.toNat == 12288 ||
  c.toNat == 65279

/-- Model of `String.prototype.toLowerCase` on one character (the ASCII
range, which is the range the rest of the pipeline distinguishes: every
character outside `\w` and `\s` is discarded by `normalize`). -/
def lowerChar (c : Char) : Char :=
  if 65 ≤ c.toNat ∧ c.toNat ≤ 90 then Char.ofNat (c.toNat + 32) else c

/-- Model of `String.prototype.trim`: drop leading and trailing whitespace. -/
def trimWs (l : List Char) : List Char :=
  ((l.dropWhile isSpaceChar).reverse.dropWhile isSpaceChar).reverse

/-- Split a string into its maximal whitespace-free words, dropping the
whitespace; auxiliary accumulator holds the current word reversed. -/
def wordsAux : List Char → List Char → List (List Char)
  | [], acc => if acc = [] then [] else [acc.reverse]
  | c :: cs, acc =>
    if isSpaceChar c then
      if acc = [] then wordsAux cs [] else acc.reverse :: wordsAux cs []
    else wordsAux cs (c :: acc)

def wordsOf (s : List Char) : List (List Char) := wordsAux s []

/-- Join words with single spaces.  `joinWords (wordsOf s)` is the model of
`s.replace(/\s+/g, ' ').trim()`: every whitespace run becomes one space and
the ends are trimmed. -/
def joinWords : List (List Char) → List Char
  | [] => []
  | [w] => w
  | w :: ws => w ++ ' ' :: joinWords ws

/-- Is the position after a deleted token a word boundary (end of string or a
non-word character)? -/
def boundaryAfter : List Char → Bool
  | [] => true
  | d :: _ => !isWordChar d

/-- Scanner model of `text.replace(new RegExp('\\b' + w + '\\b', 'g'), '')`
for a non-empty all-word-character `w`: at each position that follows a
non-word character (or the start), if `w` occurs and is followed by a word
boundary, its characters are deleted and scanning resumes after them;
otherwise one character is copied.  `prevW` records whether the previous
retained source character was a word character; the fuel argument makes the
recursion structural and is always called with the string length. -/
def delTokGo (w : List Char) : ℕ → List Char → Bool → List Char
  | _, [], _ => []
  | 0, s, _ => s
  | fuel + 1, c :: cs, prevW =>
    if prevW = false ∧ (c :: cs).take w.length = w ∧
        boundaryAfter ((c :: cs).drop w.length) = true ∧ 0 < w.length then
      delTokGo w fuel ((c :: cs).drop w.length) true
    else
      c :: delTokGo w fuel cs (isWordChar c)

def delTokRun (s w : List Char) : List Char := delTokGo w s.length s false

/-- The word list of the `for`-loop inside `normalize`. -/
def normStopWords : List (List Char) :=
  [("will".toList), ("the".toList), ("be".toList), ("to".toList),
   ("in".toList), ("on".toList), ("by".toList), ("of".toList),
   ("a".toList), ("an".toList), ("is".toList), ("before".toList),
   ("after".toList)]

/-- Function `normalize` from the source: lower-case and trim, strip every character
that is neither a word character nor whitespace, delete each stop word as a
whole word, then collapse whitespace runs to single spaces and trim. -/
def normalize (text : List Char) : List Char :=
  let t1 := trimWs (text.map lowerChar)
  let t2 := t1.filter (fun c => isWordChar c || isSpaceChar c)
  let t3 := normStopWords.foldl delTokRun t2
  joinWords (wordsOf t3)

/-- The `STOP_WORDS` set of the source. -/
def STOP_WORDS : List (List Char) :=
  [("january".toList), ("february".toList), ("march".toList), ("april".toList),
   ("june".toList), ("july".toList), ("august".toList), ("september".toList),
   ("october".toList), ("november".toList), ("december".toList),
   ("than".toList), ("more".toList), ("less".toList), ("most".toList),
   ("least".toList), ("much".toList), ("many".toList), ("some".toList),
   ("other".toList), ("this".toList), ("that".toList), ("with".toList),
   ("from".toList), ("have".toList), ("been".toList),
   ("what".toList), ("when".toList), ("where".toList), ("which".toList),
   ("while".toList), ("would".toList), ("could".toList), ("should".toList),
   ("does".toList), ("about".toList), ("into".toList), ("over".toList),
   ("under".toList),
   ("between".toList), ("through".toList), ("during".toList), ("each".toList),
   ("every".toList), ("both".toList), ("either".toList), ("neither".toList),
   ("first".toList), ("second".toList), ("third".toList), ("last".toList),
   ("next".toList), ("2024".toList), ("2025".toList), ("2026".toList),
   ("2027".toList), ("2028".toList), ("2029".toList), ("2030".toList),
   ("end".toList), ("start".toList), ("year".toList), ("month".toList),
   ("week".toList), ("day".toList),
   ("united".toList), ("states".toList), ("world".toList), ("country".toList)]

/-- The filter of `getKeywords`: length above 3, not a stop word, not a
non-empty pure-digit token (the regex `/^\d+$/`). -/
def keywordGood (w : List Char) : Bool :=
  decide (3 < w.length) && !(decide (w ∈ STOP_WORDS)) &&
  !(!(w.isEmpty) && w.all (fun c => c.isDigit))

/-- Model of `String.prototype.split(' ')`: split on every single space
character (consecutive spaces yield empty pieces, as in JavaScript). -/
def splitSpace : List Char → List Char → List (List Char)
  | [], acc => [acc.reverse]
  | c :: cs, acc =>
    if c = ' ' then acc.reverse :: splitSpace cs [] else splitSpace cs (c :: acc)

/-- Model of `new Set(...)` over strings: keep the first occurrence of each
element, in insertion order. -/
def jsSetOf : List (List Char) → List (List Char) → List (List Char)
  | [], _ => []
  | x :: xs, seen => if x ∈ seen then jsSetOf xs seen else x :: jsSetOf xs (x :: seen)

/-- Function `getKeywords` from the source. -/
def getKeywords (text : List Char) : List (List Char) :=
  jsSetOf ((splitSpace (normalize text) []).filter keywordGood) []

/-- The `Market` record (a Listing of the specification). -/
structure Market where
  platform : List Char
  id : List Char
  question : List Char
  event : List Char
  yes_price : ℚ
  no_price : ℚ
  url : List Char
deriving DecidableEq

/-- The `Match` record. -/
structure Match where
  marketA : Market
  marketB : Market
  match_score : ℤ
deriving DecidableEq

/-- Model of `Math.round`: round half towards positive infinity. -/
def jsRound (q : ℚ) : ℤ := ⌊q + 1 / 2⌋

/-- Model of `Array.from(aWords).filter(x => bWords.has(x)).length`: the number of
keywords shared by the two (duplicate-free) keyword lists. -/
def kwOverlap (aw bw : List (List Char)) : ℕ :=
  (aw.filter (fun t => decide (t ∈ bw))).length

/-- The candidate score of `matchAllMarkets`:
`Math.round(overlap / Math.min(aWords.size, bWords.size) * 100)`. -/
def pairScore (aw bw : List (List Char)) : ℤ :=
  jsRound ((kwOverlap aw bw : ℚ) / ((min aw.length bw.length : ℕ) : ℚ) * 100)

/-- The body of the `for (const {market: mB, words: bWords} of bKeywords)`
loop of `matchAllMarkets`: skip B-side listings with fewer than two keywords,
skip overlaps below two, and keep the first candidate whose score strictly
beats the best score so far and meets the threshold. -/
def considerB (threshold : ℤ) (aw : List (List Char))
    (acc : ℤ × Option Market) (p : Market × List (List Char)) : ℤ × Option Market :=
  if p.2.length < 2 then acc
  else if kwOverlap aw p.2 < 2 then acc
  else if acc.1 < pairScore aw p.2 ∧ threshold ≤ pairScore aw p.2 then
    (pairScore aw p.2, some p.1)
  else acc

/-- The inner candidate loop of `matchAllMarkets`. -/
def bestCandidate (threshold : ℤ) (aw : List (List Char))
    (bks : List (Market × List (List Char))) : ℤ × Option Market :=
  bks.foldl (considerB threshold aw) (0, none)

/-- JavaScript default string comparison (code-unit lexicographic `≤`),
used by `Array.prototype.sort` on the two-element id array. -/
def jsLeStr : List Char → List Char → Bool
  | [], _ => true
  | _ :: _, [] => false
  | a :: as, b :: bs =>
    if a.toNat < b.toNat then true
    else if b.toNat < a.toNat then false
    else jsLeStr as bs

/-- Model of `[idA, idB].sort().join('|')`: the canonical unordered pair key. -/
def pairKey (idA idB : List Char) : List Char :=
  if jsLeStr idA idB = true then idA ++ '|' :: idB else idB ++ '|' :: idA

/-- The accumulator of `matchAllMarkets`: the matches pushed so far and the
`usedPairs` set of canonical pair keys. -/
structure MatchState where
  matchList : List Match
  usedPairs : List (List Char)

/-- The body of the `for (const mA of groupA)` loop of `matchAllMarkets`. -/
def processListingA (threshold : ℤ) (bks : List (Market × List (List Char)))
    (st : MatchState) (mA : Market) : MatchState :=
  let aWords := getKeywords mA.question
  if aWords.length < 2 then st
  else
    let best := bestCandidate threshold aWords bks
    match best.2 with
    | none => st
    | some mB =>
      let key := pairKey mA.id mB.id
      if key ∈ st.usedPairs then st
      else ⟨st.matchList ++ [⟨mA, mB, best.1⟩], st.usedPairs ++ [key]⟩

/-- Insert a market into the `byPlatform` grouping: groups keep the order of
first appearance of a platform, and each group keeps listing order. -/
def groupInsert : List (List Char × List Market) → Market → List (List Char × List Market)
  | [], m => [(m.platform, [m])]
  | (p, grp) :: rest, m =>
    if p = m.platform then (p, grp ++ [m]) :: rest
    else (p, grp) :: groupInsert rest m

def byPlatform (ms : List Market) : List (List Char × List Market) :=
  ms.foldl groupInsert []

/-- All pairs of distinct platform groups `(i, j)` with `i < j`, in the
order of the source's double loop. -/
def platformPairs : List (List Char × List Market) → List (List Market × List Market)
  | [] => []
  | g :: gs => (gs.map (fun g2 => (g.2, g2.2))) ++ platformPairs gs

/-- Function `matchAllMarkets` from the source. -/
def matchAllMarkets (allMarkets : List Market) (threshold : ℤ) : List Match :=
  ((platformPairs (byPlatform allMarkets)).foldl
    (fun st gp =>
      let bks := gp.2.map (fun m => (m, getKeywords m.question))
      gp.1.foldl (processListingA threshold bks) st)
    (⟨[], []⟩ : MatchState)).matchList

/-- The `Arb` record. -/
structure Arb where
  question : List Char
  match_score : ℤ
  spread : ℚ
  cost : ℚ
  strategy : List Char
  platformA : List Char
  platformB : List Char
  urlA : List Char
  urlB : List Char
  yesA : ℚ
  noA : ℚ
  yesB : ℚ
  noB : ℚ
deriving DecidableEq, Inhabited

def cost1 (m : Match) : ℚ := m.marketA.yes_price + m.marketB.no_price

def spread1 (m : Match) : ℚ := 1 - cost1 m

def cost2 (m : Match) : ℚ := m.marketA.no_price + m.marketB.yes_price

def spread2 (m : Match) : ℚ := 1 - cost2 m

/-- Model of `Number.prototype.toFixed(2)`: round to the nearest hundredth
(ties towards positive infinity) and print with exactly two decimals. -/
def toFixed2 (q : ℚ) : List Char :=
  let n := jsRound (q * 100)
  let sgn : List Char := if n < 0 then ['-'] else []
  let frac :=
    if n.natAbs % 100 < 10 then '0' :: Nat.toDigits 10 (n.natAbs % 100)
    else Nat.toDigits 10 (n.natAbs % 100)
  sgn ++ Nat.toDigits 10 (n.natAbs / 100) ++ '.' :: frac

/-- The strategy string of hedge 1: buy YES on side A and NO on side B. -/
def hedge1Strategy (m : Match) : List Char :=
  ("BUY YES@".toList) ++ m.marketA.platform ++ ("($".toList) ++
    toFixed2 m.marketA.yes_price ++ (") + BUY NO@".toList) ++
    m.marketB.platform ++ ("($".toList) ++ toFixed2 m.marketB.no_price ++
    (")".toList)

/-- The strategy string of hedge 2: buy NO on side A and YES on side B. -/
def hedge2Strategy (m : Match) : List Char :=
  ("BUY NO@".toList) ++ m.marketA.platform ++ ("($".toList) ++
    toFixed2 m.marketA.no_price ++ (") + BUY YES@".toList) ++
    m.marketB.platform ++ ("($".toList) ++ toFixed2 m.marketB.yes_price ++
    (")".toList)

/-- The body of the loop of `findArbitrage`: the `Arb` pushed for a match,
if any. -/
def arbOfMatch (m : Match) : Option Arb :=
  if 0 < spread1 m ∨ 0 < spread2 m then
    some
      { question := m.marketA.question.take 80
        match_score := m.match_score
        spread := max (spread1 m) (spread2 m)
        cost := if spread2 m ≤ spread1 m then cost1 m else cost2 m
        strategy := if spread2 m ≤ spread1 m then hedge1Strategy m else hedge2Strategy m
        platformA := m.marketA.platform
        platformB := m.marketB.platform
        urlA := m.marketA.url
        urlB := m.marketB.url
        yesA := m.marketA.yes_price
        noA := m.marketA.no_price
        yesB := m.marketB.yes_price
        noB := m.marketB.no_price }
  else none

/-- Insertion step of the final `arbs.sort((a, b) => b.spread - a.spread)`:
descending by spread. -/
def insertDesc (a : Arb) : List Arb → List Arb
  | [] => [a]
  | b :: l => if b.spread ≤ a.spread then a :: b :: l else b :: insertDesc a l

def sortBySpreadDesc : List Arb → List Arb
  | [] => []
  | a :: l => insertDesc a (sortBySpreadDesc l)

/-- Function `findArbitrage` from the source. -/
def findArbitrage (ms : List Match) : List Arb :=
  sortBySpreadDesc (ms.filterMap arbOfMatch)

/-! ## Derived definitions, invariant predicates and sample data -/

/-- The canonical pair key of a `Match` record. -/
def keyOfMatch (m : Match) : List Char := pairKey m.marketA.id m.marketB.id
/-- The facts `matchAllMarkets` guarantees for every emitted match: the score
is the rounded overlap-over-smaller-set formula, both keyword sets have at
least two elements and the overlap is at least two. -/
def goodMatch (m : Match) : Prop :=
  m.match_score = pairScore (getKeywords m.marketA.question) (getKeywords m.marketB.question) ∧
  2 ≤ (getKeywords m.marketA.question).length ∧
  2 ≤ (getKeywords m.marketB.question).length ∧
  2 ≤ kwOverlap (getKeywords m.marketA.question) (getKeywords m.marketB.question)
/-- Invariant of the candidate accumulator of the inner loop. -/
def candProp (aw : List (List Char)) (acc : ℤ × Option Market) : Prop :=
  ∀ b, acc.2 = some b →
    acc.1 = pairScore aw (getKeywords b.question) ∧
    2 ≤ (getKeywords b.question).length ∧
    2 ≤ kwOverlap aw (getKeywords b.question)
/-- Invariant of the matcher state: every recorded match satisfies
`goodMatch`, the canonical pair keys of the recorded matches are pairwise
distinct, and each of them is in the `usedPairs` set. -/
def MatcherInv (st : MatchState) : Prop :=
  (∀ m ∈ st.matchList, goodMatch m) ∧
  (st.matchList.map keyOfMatch).Nodup ∧
  (∀ m ∈ st.matchList, keyOfMatch m ∈ st.usedPairs)
/-- A string is well formed when it only holds word characters and
whitespace; this is the state of the pipeline after the punctuation strip. -/
def WFStr (s : List Char) : Prop := ∀ c ∈ s, isWordChar c = true ∨ isSpaceChar c = true
/-- Shorthand for `delTokGo` run with its canonical fuel. -/
def delTokF (w s : List Char) (b : Bool) : List Char := delTokGo w s.length s b
/-- Two platform-A listings and one platform-B listing with identical
questions: both A-listings match the single B-listing. -/
def sampleA1 : Market :=
  ⟨("Pa".toList), ("a1".toList), ("alpha bravo".toList), [], 1/2, 1/2, ("u1".toList)⟩

def sampleA2 : Market :=
  ⟨("Pa".toList), ("a2".toList), ("alpha bravo".toList), [], 1/2, 1/2, ("u2".toList)⟩

def sampleB : Market :=
  ⟨("Pb".toList), ("bb".toList), ("alpha bravo".toList), [], 1/2, 1/2, ("u3".toList)⟩

/-- A matched pair carrying a hedge-1 arbitrage: cost 0.40 + 0.42 = 0.82,
spread 0.18. -/
def evalA : Market :=
  ⟨("Pa".toList), ("ia".toList), ("alpha bravo".toList), [], 2/5, 11/20, ("ua".toList)⟩

def evalB : Market :=
  ⟨("Pb".toList), ("ib".toList), ("alpha bravo".toList), [], 1/2, 21/50, ("ub".toList)⟩

def evalMatch : Match := ⟨evalA, evalB, 100⟩
/-- First element of the evaluator's output on the sample match. -/
def sampleArb : Arb := (findArbitrage [evalMatch]).headD default
/-- The first sample match record emitted by the matcher on the sample run. -/
def sampleMatch : Match := ⟨sampleA1, sampleB, 100⟩

/-! ## Matcher invariants -/

lemma considerB_prop {t : ℤ} {aw : List (List Char)} {acc : ℤ × Option Market}
    {p : Market × List (List Char)} (hp : p.2 = getKeywords p.1.question)
    (h : candProp aw acc) : candProp aw (considerB t aw acc p) := by
  unfold considerB
  split_ifs with h1 h2 h3
  · exact h
  · exact h
  · intro b hb
    simp only [Option.some.injEq] at hb
    subst hb
    refine ⟨by rw [← hp], ?_, ?_⟩
    · rw [← hp]; omega
    · rw [← hp]; omega
  · exact h

lemma foldl_considerB_prop {t : ℤ} {aw : List (List Char)} :
    ∀ (bks : List (Market × List (List Char))) (acc : ℤ × Option Market),
      (∀ p ∈ bks, p.2 = getKeywords p.1.question) → candProp aw acc →
      candProp aw (List.foldl (considerB t aw) acc bks) := by
  intro bks
  induction bks with
  | nil => intro acc _ h; simpa using h
  | cons p ps ih =>
    intro acc hb h
    rw [List.foldl_cons]
    exact ih _ (fun q hq => hb q (List.mem_cons_of_mem _ hq))
      (considerB_prop (hb p (List.mem_cons_self _ _)) h)

lemma bestCandidate_prop {t : ℤ} {aw : List (List Char)}
    {bks : List (Market × List (List Char))}
    (hbks : ∀ p ∈ bks, p.2 = getKeywords p.1.question) :
    candProp aw (bestCandidate t aw bks) := by
  unfold bestCandidate
  exact foldl_considerB_prop bks (0, none) hbks (fun b hb => by simp at hb)

lemma processListingA_inv {t : ℤ} {bks : List (Market × List (List Char))}
    {st : MatchState} {mA : Market}
    (hbks : ∀ p ∈ bks, p.2 = getKeywords p.1.question)
    (h : MatcherInv st) : MatcherInv (processListingA t bks st mA) := by
  simp only [processListingA]
  split_ifs with h1
  · exact h
  · cases hbc : (bestCandidate t (getKeywords mA.question) bks).2 with
    | none => simpa [hbc] using h
    | some mB =>
      simp only [hbc]
      split_ifs with h2
      · exact h
      · obtain ⟨hg, hnd, hsub⟩ := h
        have hcand := @bestCandidate_prop t (getKeywords mA.question) bks hbks mB hbc
        refine ⟨?_, ?_, ?_⟩
        · intro m hm
          rcases List.mem_append.1 hm with hm | hm
          · exact hg m hm
          · rcases List.mem_singleton.1 hm with rfl
            refine ⟨hcand.1, ?_, hcand.2.1, hcand.2.2⟩
            show 2 ≤ (getKeywords mA.question).length
            omega
        · rw [List.map_append, List.nodup_append]
          refine ⟨hnd, List.nodup_singleton _, ?_⟩
          intro k hk hk'
          simp only [List.map_singleton, List.mem_singleton] at hk'
          subst hk'
          rcases List.mem_map.1 hk with ⟨m, hm, hkey⟩
          have hin : keyOfMatch m ∈ st.usedPairs := hsub m hm
          rw [hkey] at hin
          exact h2 hin
        · intro m hm
          rcases List.mem_append.1 hm with hm | hm
          · exact List.mem_append_left _ (hsub m hm)
          · rcases List.mem_singleton.1 hm with rfl
            exact List.mem_append_right _ (List.mem_singleton_self _)

lemma foldl_processListingA_inv {t : ℤ} {bks : List (Market × List (List Char))}
    (hbks : ∀ p ∈ bks, p.2 = getKeywords p.1.question) :
    ∀ (gA : List Market) (st : MatchState), MatcherInv st →
      MatcherInv (gA.foldl (processListingA t bks) st) := by
  intro gA
  induction gA with
  | nil => intro st h; simpa using h
  | cons mA rest ih =>
    intro st h
    rw [List.foldl_cons]
    exact ih _ (processListingA_inv hbks h)

lemma bks_spec (g : List Market) :
    ∀ p ∈ g.map (fun m => (m, getKeywords m.question)), p.2 = getKeywords p.1.question := by
  intro p hp
  rcases List.mem_map.1 hp with ⟨m, _, h⟩
  rw [← h]

lemma foldl_pairs_inv {t : ℤ} :
    ∀ (prs : List (List Market × List Market)) (st : MatchState), MatcherInv st →
      MatcherInv (prs.foldl
        (fun st gp =>
          gp.1.foldl (processListingA t (gp.2.map (fun m => (m, getKeywords m.question)))) st)
        st) := by
  intro prs
  induction prs with
  | nil => intro st h; simpa using h
  | cons gp rest ih =>
    intro st h
    rw [List.foldl_cons]
    exact ih _ (foldl_processListingA_inv (bks_spec gp.2) gp.1 st h)

lemma matchAllMarkets_eq (ms : List Market) (t : ℤ) :
    matchAllMarkets ms t =
      ((platformPairs (byPlatform ms)).foldl
        (fun st gp =>
          gp.1.foldl (processListingA t (gp.2.map (fun m => (m, getKeywords m.question)))) st)
        (⟨[], []⟩ : MatchState)).matchList := by
  simp only [matchAllMarkets]

lemma matchAllMarkets_inv (ms : List Market) (t : ℤ) :
    (∀ m ∈ matchAllMarkets ms t, goodMatch m) ∧
    ((matchAllMarkets ms t).map keyOfMatch).Nodup := by
  have hinit : MatcherInv (⟨[], []⟩ : MatchState) :=
    ⟨fun m hm => absurd hm (List.not_mem_nil m), List.nodup_nil,
     fun m hm => absurd hm (List.not_mem_nil m)⟩
  have h := @foldl_pairs_inv t (platformPairs (byPlatform ms)) ⟨[], []⟩ hinit
  rw [matchAllMarkets_eq]
  exact ⟨h.1, h.2.1⟩

/-! ## Evaluator lemmas -/

lemma mem_insertDesc {x a : Arb} {l : List Arb} :
    x ∈ insertDesc a l ↔ x = a ∨ x ∈ l := by
  induction l with
  | nil => simp [insertDesc]
  | cons b l ih =>
    simp only [insertDesc]
    split_ifs with h
    · simp [List.mem_cons]
    · simp only [List.mem_cons, ih]
      tauto

lemma length_insertDesc (a : Arb) (l : List Arb) :
    (insertDesc a l).length = l.length + 1 := by
  induction l with
  | nil => rfl
  | cons b l ih =>
    simp only [insertDesc]
    split_ifs with h
    · rfl
    · simp [List.length_cons, ih]

lemma mem_sortBySpreadDesc {x : Arb} {l : List Arb} :
    x ∈ sortBySpreadDesc l ↔ x ∈ l := by
  induction l with
  | nil => simp [sortBySpreadDesc]
  | cons a l ih =>
    simp only [sortBySpreadDesc, mem_insertDesc, List.mem_cons, ih]

lemma length_sortBySpreadDesc (l : List Arb) :
    (sortBySpreadDesc l).length = l.length := by
  induction l with
  | nil => rfl
  | cons a l ih =>
    simp only [sortBySpreadDesc, length_insertDesc, List.length_cons, ih]

lemma pairwise_insertDesc {a : Arb} {l : List Arb}
    (h : l.Pairwise (fun x y => y.spread ≤ x.spread)) :
    (insertDesc a l).Pairwise (fun x y => y.spread ≤ x.spread) := by
  induction l with
  | nil => simp [insertDesc]
  | cons b l ih =>
    rcases List.pairwise_cons.1 h with ⟨hb, hl⟩
    simp only [insertDesc]
    split_ifs with hba
    · refine List.pairwise_cons.2 ⟨?_, h⟩
      intro y hy
      rcases List.mem_cons.1 hy with rfl | hy
      · exact hba
      · exact le_trans (hb y hy) hba
    · refine List.pairwise_cons.2 ⟨?_, ih hl⟩
      intro y hy
      rcases mem_insertDesc.1 hy with rfl | hy
      · exact le_of_not_le hba
      · exact hb y hy

lemma sorted_sortBySpreadDesc (l : List Arb) :
    (sortBySpreadDesc l).Pairwise (fun x y => y.spread ≤ x.spread) := by
  induction l with
  | nil => simp [sortBySpreadDesc]
  | cons a l ih => exact pairwise_insertDesc ih

lemma arbOfMatch_isSome (m : Match) :
    (arbOfMatch m).isSome = decide (0 < spread1 m ∨ 0 < spread2 m) := by
  unfold arbOfMatch
  split_ifs with h <;> simp [h]

lemma arbOfMatch_some {m : Match} {a : Arb} (h : arbOfMatch m = some a) :
    a.spread = max (spread1 m) (spread2 m) ∧
    a.cost = (if spread2 m ≤ spread1 m then cost1 m else cost2 m) ∧
    a.strategy = (if spread2 m ≤ spread1 m then hedge1Strategy m else hedge2Strategy m) ∧
    a.question = m.marketA.question.take 80 := by
  by_cases hc : 0 < spread1 m ∨ 0 < spread2 m
  · unfold arbOfMatch at h
    rw [if_pos hc] at h
    injection h with h
    subst h
    exact ⟨rfl, rfl, rfl, rfl⟩
  · unfold arbOfMatch at h
    rw [if_neg hc] at h
    cases h

lemma length_filterMap_arbOfMatch (ms : List Match) :
    (ms.filterMap arbOfMatch).length =
      ms.countP (fun m => decide (0 < spread1 m ∨ 0 < spread2 m)) := by
  induction ms with
  | nil => rfl
  | cons m ms ih =>
    have hs := arbOfMatch_isSome m
    rw [List.filterMap_cons, List.countP_cons]
    cases h : arbOfMatch m with
    | none =>
      rw [h] at hs
      simp only [Option.isSome_none] at hs
      rw [ih, ← hs]
      simp
    | some a =>
      rw [h] at hs
      simp only [Option.isSome_some] at hs
      rw [List.length_cons, ih, ← hs]
      simp

lemma mem_findArbitrage {ms : List Match} {a : Arb} (ha : a ∈ findArbitrage ms) :
    ∃ m ∈ ms, arbOfMatch m = some a := by
  unfold findArbitrage at ha
  exact List.mem_filterMap.1 (mem_sortBySpreadDesc.1 ha)

/-! ## Keyword extractor lemmas -/

lemma mem_jsSetOf : ∀ {l seen : List (List Char)} {x : List Char},
    x ∈ jsSetOf l seen → x ∈ l := by
  intro l
  induction l with
  | nil => intro seen x hx; simp [jsSetOf] at hx
  | cons y ys ih =>
    intro seen x hx
    simp only [jsSetOf] at hx
    split_ifs at hx with h
    · exact List.mem_cons_of_mem _ (ih hx)
    · rcases List.mem_cons.1 hx with rfl | hx
      · exact List.mem_cons_self _ _
      · exact List.mem_cons_of_mem _ (ih hx)

lemma getKeywords_good {s w : List Char} (hw : w ∈ getKeywords s) :
    keywordGood w = true := by
  unfold getKeywords at hw
  exact (List.mem_filter.1 (mem_jsSetOf hw)).2

/-! ## Normalizer lemmas

The normal form of `normalize` is `joinWords ts` for a list `ts` of non-empty
words of lower-case word characters, none of which is a stop word.  The
lemmas below show each pipeline stage fixes such strings, which gives
idempotence. -/

lemma word_not_space {c : Char} (h : isWordChar c = true) : isSpaceChar c = false := by
  rw [← Bool.not_eq_true]
  intro hs
  simp only [isWordChar, Bool.or_eq_true, Bool.and_eq_true, decide_eq_true_eq,
    beq_iff_eq] at h
  simp only [isSpaceChar, Bool.or_eq_true, Bool.and_eq_true, decide_eq_true_eq,
    beq_iff_eq] at hs
  omega

lemma toNat_lowerChar_upper {c : Char} (h1 : 65 ≤ c.toNat) (h2 : c.toNat ≤ 90) :
    (lowerChar c).toNat = c.toNat + 32 := by
  unfold lowerChar
  rw [if_pos ⟨h1, h2⟩]
  have hv : (c.toNat + 32).isValidChar := by
    unfold Nat.isValidChar
    omega
  simp only [Char.ofNat, dif_pos hv]
  simp [Char.ofNatAux, Char.toNat, UInt32.toNat, UInt32.ofNatCore]

lemma lowerChar_idem (c : Char) : lowerChar (lowerChar c) = lowerChar c := by
  by_cases h : 65 ≤ c.toNat ∧ c.toNat ≤ 90
  · have ht := toNat_lowerChar_upper h.1 h.2
    calc lowerChar (lowerChar c)
        = if 65 ≤ (lowerChar c).toNat ∧ (lowerChar c).toNat ≤ 90 then
            Char.ofNat ((lowerChar c).toNat + 32)
          else lowerChar c := rfl
      _ = lowerChar c := if_neg (by rw [ht]; omega)
  · have hfix : lowerChar c = c := if_neg h
    rw [hfix]
    exact hfix

/-- Every word of `wordsAux s acc` is non-empty, free of whitespace, and its
characters come from `s` or from the accumulator. -/
lemma wordsAux_spec : ∀ (s acc : List Char),
    (∀ c ∈ acc, isSpaceChar c = false) →
    ∀ w ∈ wordsAux s acc, w ≠ [] ∧ ∀ c ∈ w, isSpaceChar c = false ∧ (c ∈ s ∨ c ∈ acc) := by
  intro s
  induction s with
  | nil =>
    intro acc hacc w hw
    simp only [wordsAux] at hw
    split_ifs at hw with h
    · simp at hw
    · rcases List.mem_singleton.1 hw with rfl
      refine ⟨by simpa using h, ?_⟩
      intro c hc
      rw [List.mem_reverse] at hc
      exact ⟨hacc c hc, Or.inr hc⟩
  | cons d t ih =>
    intro acc hacc w hw
    simp only [wordsAux] at hw
    by_cases hd : isSpaceChar d = true
    · rw [if_pos hd] at hw
      split_ifs at hw with hnil
      · obtain ⟨h1, h2⟩ := ih [] (by simp) w hw
        exact ⟨h1, fun c hc => ⟨(h2 c hc).1,
          Or.inl (List.mem_cons_of_mem _ ((h2 c hc).2.resolve_right (by simp)))⟩⟩
      · rcases List.mem_cons.1 hw with rfl | hw
        · refine ⟨by simpa using hnil, ?_⟩
          intro c hc
          rw [List.mem_reverse] at hc
          exact ⟨hacc c hc, Or.inr hc⟩
        · obtain ⟨h1, h2⟩ := ih [] (by simp) w hw
          exact ⟨h1, fun c hc => ⟨(h2 c hc).1,
            Or.inl (List.mem_cons_of_mem _ ((h2 c hc).2.resolve_right (by simp)))⟩⟩
    · rw [if_neg hd] at hw
      have hd' : isSpaceChar d = false := by
        cases hx : isSpaceChar d
        · rfl
        · exact absurd hx hd
      obtain ⟨h1, h2⟩ := ih (d :: acc)
        (by intro c hc; rcases List.mem_cons.1 hc with rfl | hc
            · exact hd'
            · exact hacc c hc) w hw
      refine ⟨h1, fun c hc => ⟨(h2 c hc).1, ?_⟩⟩
      rcases (h2 c hc).2 with hc' | hc'
      · exact Or.inl (List.mem_cons_of_mem _ hc')
      · rcases List.mem_cons.1 hc' with rfl | hc'
        · exact Or.inl (List.mem_cons_self _ _)
        · exact Or.inr hc'

lemma wordsOf_spec (s : List Char) :
    ∀ w ∈ wordsOf s, w ≠ [] ∧ ∀ c ∈ w, isSpaceChar c = false ∧ c ∈ s := by
  intro w hw
  obtain ⟨h1, h2⟩ := wordsAux_spec s [] (by simp) w hw
  exact ⟨h1, fun c hc => ⟨(h2 c hc).1, (h2 c hc).2.resolve_right (by simp)⟩⟩

lemma wordsAux_space_cons {d : Char} (hd : isSpaceChar d = true) (s : List Char) :
    wordsAux (d :: s) [] = wordsAux s [] := by
  simp [wordsAux, hd]

/-- Splitting off a whole leading word: if `r` is a non-empty whitespace-free
run and `s` is empty or starts with whitespace, `wordsAux` emits
`acc.reverse ++ r` and continues on `s`. -/
lemma wordsAux_append (r : List Char) :
    ∀ (s acc : List Char), (∀ c ∈ r, isSpaceChar c = false) →
      (s = [] ∨ ∃ d t, s = d :: t ∧ isSpaceChar d = true) →
      acc.reverse ++ r ≠ [] →
      wordsAux (r ++ s) acc = (acc.reverse ++ r) :: wordsAux s [] := by
  induction r with
  | nil =>
    intro s acc _ hs hne
    rcases hs with rfl | ⟨d, t, rfl, hd⟩
    · have hacc : ¬ acc = [] := by
        intro h
        rw [h] at hne
        simp at hne
      simp [wordsAux, hacc]
    · have hacc : ¬ acc = [] := by
        intro h
        rw [h] at hne
        simp at hne
      rw [List.nil_append, List.append_nil, wordsAux_space_cons hd]
      simp [wordsAux, hd, hacc]
  | cons c r' ih =>
    intro s acc hr hs hne
    have hc : isSpaceChar c = false := hr c (List.mem_cons_self _ _)
    simp only [List.cons_append, wordsAux, hc, Bool.false_eq_true, if_false,
      List.append_eq]
    have := ih s (c :: acc) (fun x hx => hr x (List.mem_cons_of_mem _ hx)) hs
      (by simp)
    rw [this]
    simp

lemma wordsOf_join : ∀ (ts : List (List Char)),
    (∀ w ∈ ts, w ≠ [] ∧ ∀ c ∈ w, isSpaceChar c = false) →
    wordsOf (joinWords ts) = ts := by
  intro ts
  induction ts with
  | nil => intro _; rfl
  | cons w ws ih =>
    intro h
    obtain ⟨hw1, hw2⟩ := h w (List.mem_cons_self _ _)
    cases ws with
    | nil =>
      show wordsAux (joinWords [w]) [] = [w]
      have : joinWords [w] = w ++ [] := by simp [joinWords]
      rw [this, wordsAux_append w [] [] hw2 (Or.inl rfl) (by simpa using hw1)]
      rfl
    | cons w2 ws2 =>
      show wordsAux (joinWords (w :: w2 :: ws2)) [] = w :: w2 :: ws2
      have hj : joinWords (w :: w2 :: ws2) = w ++ ' ' :: joinWords (w2 :: ws2) := rfl
      rw [hj, wordsAux_append w (' ' :: joinWords (w2 :: ws2)) [] hw2
        (Or.inr ⟨' ', joinWords (w2 :: ws2), rfl, by decide⟩) (by simpa using hw1)]
      rw [wordsAux_space_cons (by decide)]
      have := ih (fun x hx => h x (List.mem_cons_of_mem _ hx))
      simp only [List.reverse_nil, List.nil_append]
      exact congrArg (w :: ·) this

lemma mem_joinWords {c : Char} : ∀ {ts : List (List Char)},
    c ∈ joinWords ts → c = ' ' ∨ ∃ w ∈ ts, c ∈ w := by
  intro ts
  induction ts with
  | nil => intro h; simp [joinWords] at h
  | cons w ws ih =>
    intro h
    cases ws with
    | nil =>
      exact Or.inr ⟨w, List.mem_cons_self _ _, by simpa [joinWords] using h⟩
    | cons w2 ws2 =>
      have hj : joinWords (w :: w2 :: ws2) = w ++ ' ' :: joinWords (w2 :: ws2) := rfl
      rw [hj] at h
      rcases List.mem_append.1 h with h | h
      · exact Or.inr ⟨w, List.mem_cons_self _ _, h⟩
      · rcases List.mem_cons.1 h with rfl | h
        · exact Or.inl rfl
        · rcases ih h with h | ⟨w', hw', hc⟩
          · exact Or.inl h
          · exact Or.inr ⟨w', List.mem_cons_of_mem _ hw', hc⟩

lemma space_not_word {c : Char} (h : isSpaceChar c = true) : isWordChar c = false := by
  rw [← Bool.not_eq_true]
  intro hw
  rw [word_not_space hw] at h
  cases h

lemma dropWhile_cons_head_false {α : Type} (p : α → Bool) :
    ∀ (l : List α) {d : α} {t : List α}, l.dropWhile p = d :: t → p d = false := by
  intro l
  induction l with
  | nil => intro d t h; cases h
  | cons x xs ih =>
    intro d t h
    rw [List.dropWhile_cons] at h
    split_ifs at h with hx
    · exact ih h
    · injection h with h1 _
      rw [← h1]
      cases hp : p x
      · rfl
      · exact absurd hp hx

lemma delTokGo_nil (w : List Char) (f : ℕ) (b : Bool) : delTokGo w f [] b = [] := by
  cases f <;> rfl

/-- The fuel argument of `delTokGo` is irrelevant as long as it bounds the
string length. -/
lemma delTokGo_fuel (w : List Char) :
    ∀ (f1 : ℕ) (s : List Char) (b : Bool) (f2 : ℕ), s.length ≤ f1 → s.length ≤ f2 →
      delTokGo w f1 s b = delTokGo w f2 s b := by
  intro f1
  induction f1 with
  | zero =>
    intro s b f2 h1 _
    have hs : s = [] := List.length_eq_zero.1 (Nat.le_zero.1 h1)
    subst hs
    rw [delTokGo_nil, delTokGo_nil]
  | succ f ih =>
    intro s b f2 h1 h2
    cases s with
    | nil => rw [delTokGo_nil, delTokGo_nil]
    | cons c cs =>
      cases f2 with
      | zero => simp at h2
      | succ f2' =>
        simp only [delTokGo]
        split_ifs with hg
        · obtain ⟨-, -, -, hlen⟩ := hg
          have hd1 : ((c :: cs).drop w.length).length ≤ f := by
            rw [List.length_drop]
            simp only [List.length_cons] at h1 ⊢
            omega
          have hd2 : ((c :: cs).drop w.length).length ≤ f2' := by
            rw [List.length_drop]
            simp only [List.length_cons] at h2 ⊢
            omega
          exact ih _ true f2' hd1 hd2
        · have hc1 : cs.length ≤ f := by simp only [List.length_cons] at h1; omega
          have hc2 : cs.length ≤ f2' := by simp only [List.length_cons] at h2; omega
          rw [ih cs (isWordChar c) f2' hc1 hc2]

lemma delTokRun_eq (s w : List Char) : delTokRun s w = delTokF w s false := rfl

lemma delTokF_nil (w : List Char) (b : Bool) : delTokF w [] b = [] := rfl

lemma delTokF_step_no {w : List Char} {c : Char} {cs : List Char} {b : Bool}
    (h : ¬ (b = false ∧ (c :: cs).take w.length = w ∧
        boundaryAfter ((c :: cs).drop w.length) = true ∧ 0 < w.length)) :
    delTokF w (c :: cs) b = c :: delTokF w cs (isWordChar c) := by
  show delTokGo w (cs.length + 1) (c :: cs) b = _
  simp only [delTokGo]
  rw [if_neg h]
  rfl

lemma delTokF_step_yes {w : List Char} {c : Char} {cs : List Char}
    (h : (c :: cs).take w.length = w)
    (hb : boundaryAfter ((c :: cs).drop w.length) = true) (hw : 0 < w.length) :
    delTokF w (c :: cs) false = delTokF w ((c :: cs).drop w.length) true := by
  show delTokGo w (cs.length + 1) (c :: cs) false = _
  simp only [delTokGo]
  split_ifs with hg
  · refine delTokGo_fuel w cs.length _ true _ ?_ le_rfl
    rw [List.length_drop]
    simp only [List.length_cons]
    omega
  · exfalso
    apply hg
    refine ⟨?_, h, hb, hw⟩
    trivial

lemma mem_delTokGo {w : List Char} :
    ∀ (f : ℕ) (s : List Char) (b : Bool) {c : Char}, c ∈ delTokGo w f s b → c ∈ s := by
  intro f
  induction f with
  | zero =>
    intro s b c hc
    cases s with
    | nil => rw [delTokGo_nil] at hc; cases hc
    | cons d t => exact hc
  | succ f ih =>
    intro s b c hc
    cases s with
    | nil => rw [delTokGo_nil] at hc; cases hc
    | cons d t =>
      simp only [delTokGo] at hc
      split_ifs at hc with hg
      · exact List.drop_subset _ _ (ih _ _ hc)
      · rcases List.mem_cons.1 hc with rfl | hc
        · exact List.mem_cons_self _ _
        · exact List.mem_cons_of_mem _ (ih _ _ hc)

lemma WFStr_delTokF {w s : List Char} {b : Bool} (h : WFStr s) : WFStr (delTokF w s b) :=
  fun c hc => h c (mem_delTokGo _ _ _ hc)

lemma take_ne_of_nonword_head {w : List Char} (hw : ∀ c ∈ w, isWordChar c = true)
    (hwne : w ≠ []) {d : Char} {t : List Char} (hd : isWordChar d = false) :
    ¬ (d :: t).take w.length = w := by
  cases w with
  | nil => exact absurd rfl hwne
  | cons x w' =>
    intro hteq
    rw [List.length_cons, List.take_succ_cons] at hteq
    have hdx : d = x := by injection hteq
    have hxw : isWordChar x = true := hw x (List.mem_cons_self _ _)
    rw [← hdx, hd] at hxw
    cases hxw

/-- The scanner state is irrelevant when the string is empty or starts with a
non-word character. -/
lemma delTokF_state {w : List Char} (hw : ∀ c ∈ w, isWordChar c = true) (hwne : w ≠ [])
    {s : List Char} (hs : s = [] ∨ ∃ d t, s = d :: t ∧ isWordChar d = false)
    (b b' : Bool) : delTokF w s b = delTokF w s b' := by
  rcases hs with rfl | ⟨d, t, rfl, hd⟩
  · rfl
  · rw [delTokF_step_no (fun hg => take_ne_of_nonword_head hw hwne hd hg.2.1),
      delTokF_step_no (fun hg => take_ne_of_nonword_head hw hwne hd hg.2.1)]

/-- With the previous-character-was-a-word-character state set, a run of word
characters is copied verbatim. -/
lemma delTokF_copy {w : List Char} :
    ∀ (r : List Char), (∀ c ∈ r, isWordChar c = true) → ∀ (s : List Char),
      delTokF w (r ++ s) true = r ++ delTokF w s true := by
  intro r
  induction r with
  | nil => intro _ s; simp
  | cons c r' ih =>
    intro hr s
    rw [List.cons_append, delTokF_step_no (by rintro ⟨hb, -⟩; cases hb),
      hr c (List.mem_cons_self _ _),
      ih (fun x hx => hr x (List.mem_cons_of_mem _ hx)) s, List.cons_append]

/-- The stop word is deleted when it stands at the front as a whole word. -/
lemma delTokF_del_head {w : List Char} (hw : ∀ c ∈ w, isWordChar c = true)
    (hwne : w ≠ []) {s : List Char}
    (hs : s = [] ∨ ∃ d t, s = d :: t ∧ isWordChar d = false) :
    delTokF w (w ++ s) false = delTokF w s false := by
  cases w with
  | nil => exact absurd rfl hwne
  | cons x w' =>
    have htake : (x :: (w' ++ s)).take (x :: w').length = x :: w' := by
      rw [← List.cons_append]
      exact List.take_left _ _
    have hdrop : (x :: (w' ++ s)).drop (x :: w').length = s := by
      rw [← List.cons_append]
      exact List.drop_left _ _
    have hbnd : boundaryAfter ((x :: (w' ++ s)).drop (x :: w').length) = true := by
      rw [hdrop]
      rcases hs with rfl | ⟨d, t, rfl, hd⟩
      · rfl
      · show (!isWordChar d) = true
        rw [hd]
        rfl
    rw [List.cons_append, delTokF_step_yes htake hbnd (by simp), hdrop]
    exact delTokF_state hw hwne hs true false

/-- A maximal word run different from the stop word is copied verbatim. -/
lemma delTokF_skip_run {w : List Char} (hw : ∀ c ∈ w, isWordChar c = true)
    (hwne : w ≠ []) {r : List Char} (hr : ∀ c ∈ r, isWordChar c = true)
    (hrne : r ≠ []) (hneq : r ≠ w) {s : List Char}
    (hs : s = [] ∨ ∃ d t, s = d :: t ∧ isWordChar d = false) :
    delTokF w (r ++ s) false = r ++ delTokF w s false := by
  cases r with
  | nil => exact absurd rfl hrne
  | cons c r' =>
    have key : ¬ ((c :: (r' ++ s)).take w.length = w ∧
        boundaryAfter ((c :: (r' ++ s)).drop w.length) = true) := by
      rintro ⟨htake, hbnd⟩
      have hsplit : c :: (r' ++ s) = (c :: r') ++ s := by rw [List.cons_append]
      rcases Nat.lt_trichotomy w.length (c :: r').length with hlt | heq | hgt
      · rw [hsplit, List.drop_append_eq_append_drop] at hbnd
        have hz : w.length - (c :: r').length = 0 := by omega
        rw [hz, List.drop_zero] at hbnd
        have hlenpos : 0 < ((c :: r').drop w.length).length := by
          rw [List.length_drop]
          omega
        obtain ⟨e, rest, hcons⟩ :=
          List.exists_cons_of_ne_nil (List.ne_nil_of_length_pos hlenpos)
        rw [hcons, List.cons_append] at hbnd
        have hew : isWordChar e = true :=
          hr e (List.drop_subset _ _ (hcons ▸ List.mem_cons_self e rest))
        simp only [boundaryAfter, hew, Bool.not_true] at hbnd
        cases hbnd
      · rw [hsplit, heq, List.take_left] at htake
        exact hneq htake
      · rw [hsplit, List.take_append_eq_append_take,
          List.take_of_length_le (by omega)] at htake
        rcases hs with rfl | ⟨d, t, rfl, hd⟩
        · rw [List.take_nil, List.append_nil] at htake
          exact hneq htake
        · obtain ⟨k, hk⟩ : ∃ k, w.length - (c :: r').length = k + 1 :=
            ⟨w.length - (c :: r').length - 1, by omega⟩
          rw [hk, List.take_succ_cons] at htake
          have hdw : d ∈ w := by
            rw [← htake]
            exact List.mem_append_right _ (List.mem_cons_self _ _)
          have := hw d hdw
          rw [this] at hd
          cases hd
    rw [List.cons_append,
      delTokF_step_no (by rintro ⟨-, h2, h3, -⟩; exact key ⟨h2, h3⟩),
      hr c (List.mem_cons_self _ _),
      delTokF_copy r' (fun x hx => hr x (List.mem_cons_of_mem _ hx)) s,
      delTokF_state hw hwne hs true false, List.cons_append]

lemma wordsOf_space_cons {d : Char} (hd : isSpaceChar d = true) (s : List Char) :
    wordsOf (d :: s) = wordsOf s := wordsAux_space_cons hd s

/-- Deleting a stop word as whole-word occurrences deletes exactly the words
equal to it, for well-formed strings. -/
lemma wordsOf_delTokF {w : List Char} (hw : ∀ c ∈ w, isWordChar c = true)
    (hwne : w ≠ []) :
    ∀ (n : ℕ) (s : List Char), s.length ≤ n → WFStr s →
      wordsOf (delTokF w s false) = (wordsOf s).filter (fun t => decide (t ≠ w)) := by
  intro n
  induction n with
  | zero =>
    intro s h1 _
    have hs : s = [] := List.length_eq_zero.1 (Nat.le_zero.1 h1)
    subst hs
    rfl
  | succ n ih =>
    intro s h1 hwf
    cases s with
    | nil => rfl
    | cons c cs =>
      have hcs_wf : WFStr cs := fun x hx => hwf x (List.mem_cons_of_mem _ hx)
      by_cases hc : isSpaceChar c = true
      · have hcw : isWordChar c = false := space_not_word hc
        rw [delTokF_step_no (fun hg => take_ne_of_nonword_head hw hwne hcw hg.2.1), hcw,
          wordsOf_space_cons hc, wordsOf_space_cons hc]
        exact ih cs (by simp only [List.length_cons] at h1; omega) hcs_wf
      · have hcw : isWordChar c = true := by
          rcases hwf c (List.mem_cons_self _ _) with h | h
          · exact h
          · exact absurd h hc
        have hsplit : c :: cs =
            (c :: cs.takeWhile (fun x => !isSpaceChar x)) ++
              cs.dropWhile (fun x => !isSpaceChar x) := by
          rw [List.cons_append, List.takeWhile_append_dropWhile]
        set run := c :: cs.takeWhile (fun x => !isSpaceChar x) with hrun_def
        set rest := cs.dropWhile (fun x => !isSpaceChar x) with hrest_def
        have hrunw : ∀ x ∈ run, isWordChar x = true := by
          intro x hx
          rcases List.mem_cons.1 hx with rfl | hx
          · exact hcw
          · have h1x := List.mem_takeWhile_imp hx
            have hxs : isSpaceChar x = false := by
              cases hb : isSpaceChar x
              · rfl
              · simp [hb] at h1x
            have h2x : x ∈ cs := (List.takeWhile_sublist _).subset hx
            rcases hwf x (List.mem_cons_of_mem _ h2x) with hx' | hx'
            · exact hx'
            · rw [hxs] at hx'
              cases hx'
        have hrunne : run ≠ [] := by simp [hrun_def]
        have hrestsp : rest = [] ∨ ∃ d t, rest = d :: t ∧ isSpaceChar d = true := by
          cases hd : rest with
          | nil => exact Or.inl rfl
          | cons d t =>
            refine Or.inr ⟨d, t, rfl, ?_⟩
            have hf := dropWhile_cons_head_false (fun x => !isSpaceChar x) cs
              (hrest_def ▸ hd)
            simpa using hf
        have hrestnw : rest = [] ∨ ∃ d t, rest = d :: t ∧ isWordChar d = false := by
          rcases hrestsp with h | ⟨d, t, hdt, hd⟩
          · exact Or.inl h
          · exact Or.inr ⟨d, t, hdt, space_not_word hd⟩
        have hrestwf : WFStr rest := fun x hx =>
          hwf x (hsplit ▸ List.mem_append_right _ hx)
        have hrestlen : rest.length ≤ n := by
          have h2 : rest.length ≤ cs.length := by
            rw [hrest_def]
            exact (List.dropWhile_sublist _).length_le
          simp only [List.length_cons] at h1
          omega
        have hwords : wordsOf (run ++ rest) = run :: wordsOf rest := by
          show wordsAux (run ++ rest) [] = _
          rw [wordsAux_append run rest [] (fun x hx => word_not_space (hrunw x hx))
            hrestsp (by simp [hrun_def])]
          simp only [List.reverse_nil, List.nil_append]
          rfl
        by_cases hrw : run = w
        · rw [hsplit, hwords, hrw, delTokF_del_head hw hwne hrestnw,
            ih rest hrestlen hrestwf, List.filter_cons]
          simp
        · rw [hsplit, hwords,
            delTokF_skip_run hw hwne hrunw hrunne hrw hrestnw]
          have hdelrest_sp : delTokF w rest false = [] ∨
              ∃ d t, delTokF w rest false = d :: t ∧ isSpaceChar d = true := by
            rcases hrestsp with hnil | ⟨d, t, hdt, hd⟩
            · rw [hnil, delTokF_nil]
              exact Or.inl rfl
            · rw [hdt, delTokF_step_no
                (fun hg => take_ne_of_nonword_head hw hwne (space_not_word hd) hg.2.1)]
              exact Or.inr ⟨d, _, rfl, hd⟩
          have hjoin : wordsOf (run ++ delTokF w rest false) =
              run :: wordsOf (delTokF w rest false) := by
            show wordsAux _ [] = _
            rw [wordsAux_append run _ [] (fun x hx => word_not_space (hrunw x hx))
              hdelrest_sp (by simp [hrun_def])]
            simp only [List.reverse_nil, List.nil_append]
            rfl
          rw [hjoin, ih rest hrestlen hrestwf, List.filter_cons]
          simp [hrw]

lemma mem_foldl_delTok : ∀ (ws : List (List Char)) (s : List Char) {c : Char},
    c ∈ ws.foldl delTokRun s → c ∈ s := by
  intro ws
  induction ws with
  | nil => intro s c hc; exact hc
  | cons w ws' ih =>
    intro s c hc
    rw [List.foldl_cons] at hc
    exact mem_delTokGo _ _ _ (ih _ hc)

/-- Folding the stop-word deletions over a well-formed string filters exactly
the stop words out of its word list. -/
lemma wordsOf_foldl_delTok :
    ∀ (ws : List (List Char)) (s : List Char),
      (∀ w ∈ ws, w ≠ [] ∧ ∀ c ∈ w, isWordChar c = true) → WFStr s →
      wordsOf (ws.foldl delTokRun s) =
        (wordsOf s).filter (fun t => decide (t ∉ ws)) := by
  intro ws
  induction ws with
  | nil =>
    intro s _ _
    simp
  | cons w ws' ih =>
    intro s hws hwf
    have hw := hws w (List.mem_cons_self _ _)
    rw [List.foldl_cons, delTokRun_eq,
      ih _ (fun x hx => hws x (List.mem_cons_of_mem _ hx)) (WFStr_delTokF hwf),
      wordsOf_delTokF hw.2 hw.1 s.length s le_rfl hwf, List.filter_filter]
    apply List.filter_congr
    intro t _
    by_cases hm1 : t ∈ ws' <;> by_cases hm2 : t = w <;>
      simp [hm1, hm2, List.mem_cons]

lemma mem_trimWs {c : Char} {l : List Char} (h : c ∈ trimWs l) : c ∈ l := by
  unfold trimWs at h
  rw [List.mem_reverse] at h
  have h1 := (List.dropWhile_sublist _).subset h
  rw [List.mem_reverse] at h1
  exact (List.dropWhile_sublist _).subset h1

lemma map_id_of_mem {f : Char → Char} :
    ∀ {l : List Char}, (∀ c ∈ l, f c = c) → l.map f = l := by
  intro l
  induction l with
  | nil => intro _; rfl
  | cons c cs ih =>
    intro h
    rw [List.map_cons, h c (List.mem_cons_self _ _),
      ih (fun x hx => h x (List.mem_cons_of_mem _ hx))]

lemma trimWs_eq_self {l : List Char}
    (h1 : l = [] ∨ ∃ c t, l = c :: t ∧ isSpaceChar c = false)
    (h2 : l.reverse = [] ∨ ∃ c t, l.reverse = c :: t ∧ isSpaceChar c = false) :
    trimWs l = l := by
  unfold trimWs
  have hd1 : l.dropWhile isSpaceChar = l := by
    rcases h1 with rfl | ⟨c, t, rfl, hc⟩
    · rfl
    · rw [List.dropWhile_cons, if_neg (by rw [hc]; simp)]
  rw [hd1]
  have hd2 : l.reverse.dropWhile isSpaceChar = l.reverse := by
    rcases h2 with hnil | ⟨c, t, heq, hc⟩
    · rw [hnil]
      rfl
    · rw [heq, List.dropWhile_cons, if_neg (by rw [hc]; simp), ← heq]
  rw [hd2, List.reverse_reverse]

lemma joinWords_head {ts : List (List Char)}
    (h : ∀ w ∈ ts, w ≠ [] ∧ ∀ c ∈ w, isSpaceChar c = false) :
    joinWords ts = [] ∨ ∃ c t, joinWords ts = c :: t ∧ isSpaceChar c = false := by
  cases ts with
  | nil => exact Or.inl rfl
  | cons w ws =>
    obtain ⟨hw1, hw2⟩ := h w (List.mem_cons_self _ _)
    obtain ⟨c, t, rfl⟩ := List.exists_cons_of_ne_nil hw1
    cases ws with
    | nil => exact Or.inr ⟨c, t, rfl, hw2 c (List.mem_cons_self _ _)⟩
    | cons w2 ws2 =>
      exact Or.inr ⟨c, t ++ ' ' :: joinWords (w2 :: ws2), rfl,
        hw2 c (List.mem_cons_self _ _)⟩

lemma joinWords_reverse_head : ∀ (ts : List (List Char)),
    (∀ w ∈ ts, w ≠ [] ∧ ∀ c ∈ w, isSpaceChar c = false) → ts ≠ [] →
    ∃ c t, (joinWords ts).reverse = c :: t ∧ isSpaceChar c = false := by
  intro ts
  induction ts with
  | nil => intro _ hne; exact absurd rfl hne
  | cons w ws ih =>
    intro h _
    obtain ⟨hw1, hw2⟩ := h w (List.mem_cons_self _ _)
    cases ws with
    | nil =>
      obtain ⟨c, t, hct⟩ :=
        List.exists_cons_of_ne_nil (show w.reverse ≠ [] by simpa using hw1)
      refine ⟨c, t, by simpa [joinWords] using hct, ?_⟩
      have hcw : c ∈ w.reverse := hct ▸ List.mem_cons_self _ _
      rw [List.mem_reverse] at hcw
      exact hw2 c hcw
    | cons w2 ws2 =>
      obtain ⟨c, t, hct, hc⟩ := ih (fun x hx => h x (List.mem_cons_of_mem _ hx))
        (by simp)
      refine ⟨c, t ++ [' '] ++ w.reverse, ?_, hc⟩
      show (w ++ ' ' :: joinWords (w2 :: ws2)).reverse = _
      rw [List.reverse_append, List.reverse_cons, hct]
      simp [List.append_assoc]

/-- Function `normalize` fixes every string in canonical form: non-empty lower-case
word-character words, none a stop word, joined by single spaces. -/
lemma normalize_canonical (ts : List (List Char))
    (h1 : ∀ w ∈ ts, w ≠ [] ∧ ∀ c ∈ w, isSpaceChar c = false)
    (h2 : ∀ w ∈ ts, ∀ c ∈ w, isWordChar c = true)
    (h3 : ∀ w ∈ ts, ∀ c ∈ w, lowerChar c = c)
    (h4 : ∀ w ∈ ts, w ∉ normStopWords) :
    normalize (joinWords ts) = joinWords ts := by
  have hchars : ∀ c ∈ joinWords ts,
      lowerChar c = c ∧ (isWordChar c = true ∨ isSpaceChar c = true) := by
    intro c hc
    rcases mem_joinWords hc with rfl | ⟨w, hw, hcw⟩
    · exact ⟨by decide, Or.inr (by decide)⟩
    · exact ⟨h3 w hw c hcw, Or.inl (h2 w hw c hcw)⟩
  have hmap : (joinWords ts).map lowerChar = joinWords ts :=
    map_id_of_mem (fun c hc => (hchars c hc).1)
  have htrim : trimWs (joinWords ts) = joinWords ts := by
    apply trimWs_eq_self (joinWords_head h1)
    cases ts with
    | nil => exact Or.inl rfl
    | cons w ws =>
      exact Or.inr (joinWords_reverse_head (w :: ws) h1 (by simp))
  have hfilter : (joinWords ts).filter (fun c => isWordChar c || isSpaceChar c) =
      joinWords ts := by
    apply List.filter_eq_self.mpr
    intro c hc
    rcases (hchars c hc).2 with h | h <;> simp [h]
  have hWFu : WFStr (joinWords ts) := fun c hc => (hchars c hc).2
  have hwords_u : wordsOf (joinWords ts) = ts := wordsOf_join ts h1
  show joinWords (wordsOf (normStopWords.foldl delTokRun
    ((trimWs ((joinWords ts).map lowerChar)).filter
      (fun c => isWordChar c || isSpaceChar c)))) = joinWords ts
  rw [hmap, htrim, hfilter,
    wordsOf_foldl_delTok normStopWords (joinWords ts) (by decide) hWFu,
    hwords_u]
  congr 1
  apply List.filter_eq_self.mpr
  intro w hw
  simpa using h4 w hw

/-! ## Sample data for witnesses -/

lemma headD_mem {α : Type} (d : α) : ∀ {l : List α}, l ≠ [] → l.headD d ∈ l
  | [], h => absurd rfl h
  | a :: l, _ => List.mem_cons_self a l

lemma matchAll_sample_eval :
    matchAllMarkets [sampleA1, sampleA2, sampleB] 50 =
      [⟨sampleA1, sampleB, 100⟩, ⟨sampleA2, sampleB, 100⟩] := by
  have hk : getKeywords (['a','l','p','h','a',' ','b','r','a','v','o']) =
      [['a','l','p','h','a'], ['b','r','a','v','o']] := by decide
  have hsc : jsRound ((100 : ℚ)) = 100 := by norm_num [jsRound]
  simp +decide [matchAllMarkets, byPlatform, groupInsert, platformPairs,
    processListingA, bestCandidate, considerB, pairScore, kwOverlap, hk,
    pairKey, jsLeStr, hsc, sampleA1, sampleA2, sampleB]

lemma findArbitrage_sample_ne_nil : findArbitrage [evalMatch] ≠ [] := by
  have hlen : (findArbitrage [evalMatch]).length = 1 := by
    unfold findArbitrage
    rw [length_sortBySpreadDesc, length_filterMap_arbOfMatch]
    have h1 : (0 : ℚ) < spread1 evalMatch := by
      simp only [spread1, cost1, evalMatch, evalA, evalB]
      norm_num
    simp [h1]
  intro hnil
  rw [hnil] at hlen
  simp at hlen

lemma sampleArb_mem : sampleArb ∈ findArbitrage [evalMatch] :=
  headD_mem default findArbitrage_sample_ne_nil

lemma sampleMatch_mem :
    sampleMatch ∈ matchAllMarkets [sampleA1, sampleA2, sampleB] 50 := by
  rw [matchAll_sample_eval]
  exact List.mem_cons_self _ _

/-! ## Claim theorems -/

/-- C1 (counterexample): the one-to-one invariant fails on the code. With two
platform-A listings and one platform-B listing that all share the same
two-keyword question, `matchAllMarkets` emits two Match records whose matched
counterpart is the same B-side listing id, because de-duplication is only by
canonical pair key. -/
theorem counterpart_reused_counterexample :
    ¬ ((matchAllMarkets [sampleA1, sampleA2, sampleB] 50).map
        (fun m => m.marketB.id)).Nodup := by
  rw [matchAll_sample_eval]
  decide

/-- C1 (amended): what `matchAllMarkets` does guarantee is that the canonical
pair key `(min(idA,idB), max(idA,idB))` of every emitted Match record is
unique across the whole match set; a single listing id can still be the
matched counterpart of several Match records. -/
theorem matchAllMarkets_pairKeys_nodup (ms : List Market) (t : ℤ) :
    ((matchAllMarkets ms t).map (fun m => pairKey m.marketA.id m.marketB.id)).Nodup := by
  have h := (matchAllMarkets_inv ms t).2
  simpa only [keyOfMatch] using h

/-- C2: every Match record emitted by `matchAllMarkets` carries the score
`round(overlap / min(|keywords(a)|, |keywords(b)|) * 100)` of its two sides,
and both sides have keyword sets of size at least 2. -/
theorem matchAllMarkets_score_formula (ms : List Market) (t : ℤ) (m : Match)
    (hm : m ∈ matchAllMarkets ms t) :
    m.match_score =
      pairScore (getKeywords m.marketA.question) (getKeywords m.marketB.question) ∧
    2 ≤ (getKeywords m.marketA.question).length ∧
    2 ≤ (getKeywords m.marketB.question).length := by
  have h := (matchAllMarkets_inv ms t).1 m hm
  exact ⟨h.1, h.2.1, h.2.2.1⟩

theorem matchAllMarkets_score_formula_witness :
    sampleMatch ∈ matchAllMarkets [sampleA1, sampleA2, sampleB] 50 ∧
    (sampleMatch.match_score =
      pairScore (getKeywords sampleMatch.marketA.question)
        (getKeywords sampleMatch.marketB.question) ∧
    2 ≤ (getKeywords sampleMatch.marketA.question).length ∧
    2 ≤ (getKeywords sampleMatch.marketB.question).length) :=
  ⟨sampleMatch_mem,
   matchAllMarkets_score_formula [sampleA1, sampleA2, sampleB] 50 sampleMatch sampleMatch_mem⟩

/-- C3: no Match record is ever produced from a candidate pair whose keyword
overlap is below 2. -/
theorem matchAllMarkets_overlap_floor (ms : List Market) (t : ℤ) (m : Match)
    (hm : m ∈ matchAllMarkets ms t) :
    2 ≤ kwOverlap (getKeywords m.marketA.question) (getKeywords m.marketB.question) :=
  ((matchAllMarkets_inv ms t).1 m hm).2.2.2

theorem matchAllMarkets_overlap_floor_witness :
    sampleMatch ∈ matchAllMarkets [sampleA1, sampleA2, sampleB] 50 ∧
    2 ≤ kwOverlap (getKeywords sampleMatch.marketA.question)
        (getKeywords sampleMatch.marketB.question) :=
  ⟨sampleMatch_mem,
   matchAllMarkets_overlap_floor [sampleA1, sampleA2, sampleB] 50 sampleMatch sampleMatch_mem⟩

/-- C4: `findArbitrage` emits exactly one Arb for each Match with
`spreadHedge1 > 0` or `spreadHedge2 > 0`, and none for any other Match; in
particular when both spreads are non-positive no Arb is produced. -/
theorem findArbitrage_count_positive_spreads (ms : List Match) :
    (findArbitrage ms).length =
      ms.countP (fun m => decide (0 < spread1 m ∨ 0 < spread2 m)) := by
  unfold findArbitrage
  rw [length_sortBySpreadDesc, length_filterMap_arbOfMatch]

/-- C5: every emitted Arb records the hedge with the larger spread: its
spread is `max(spreadHedge1, spreadHedge2)`, and its cost and strategy are
those of hedge 1 when `spreadHedge1 >= spreadHedge2` (so hedge 1 on an exact
tie) and those of hedge 2 otherwise. -/
theorem findArbitrage_picks_better_hedge (ms : List Match) (a : Arb)
    (ha : a ∈ findArbitrage ms) :
    ∃ m ∈ ms, a.spread = max (spread1 m) (spread2 m) ∧
      (spread2 m ≤ spread1 m → a.cost = cost1 m ∧ a.strategy = hedge1Strategy m) ∧
      (spread1 m < spread2 m → a.cost = cost2 m ∧ a.strategy = hedge2Strategy m) := by
  obtain ⟨m, hm, hsome⟩ := mem_findArbitrage ha
  obtain ⟨hs, hc, hstr, -⟩ := arbOfMatch_some hsome
  refine ⟨m, hm, hs, fun hle => ⟨?_, ?_⟩, fun hlt => ⟨?_, ?_⟩⟩
  · rw [hc, if_pos hle]
  · rw [hstr, if_pos hle]
  · rw [hc, if_neg (not_le.2 hlt)]
  · rw [hstr, if_neg (not_le.2 hlt)]

theorem findArbitrage_picks_better_hedge_witness :
    sampleArb ∈ findArbitrage [evalMatch] ∧
    ∃ m ∈ [evalMatch], sampleArb.spread = max (spread1 m) (spread2 m) ∧
      (spread2 m ≤ spread1 m →
        sampleArb.cost = cost1 m ∧ sampleArb.strategy = hedge1Strategy m) ∧
      (spread1 m < spread2 m →
        sampleArb.cost = cost2 m ∧ sampleArb.strategy = hedge2Strategy m) :=
  ⟨sampleArb_mem, findArbitrage_picks_better_hedge [evalMatch] sampleArb sampleArb_mem⟩

/-- C6: the list returned by `findArbitrage` is sorted in descending order
of spread. -/
theorem findArbitrage_sorted_by_spread (ms : List Match) :
    (findArbitrage ms).Pairwise (fun a b => b.spread ≤ a.spread) := by
  unfold findArbitrage
  exact sorted_sortBySpreadDesc _

/-- C7: every keyword returned by `getKeywords` has length above 3 and
contains at least one non-digit character. -/
theorem getKeywords_long_nondigit (s w : List Char) (hw : w ∈ getKeywords s) :
    3 < w.length ∧ ∃ c ∈ w, c.isDigit = false := by
  have h := getKeywords_good hw
  simp only [keywordGood, Bool.and_eq_true, decide_eq_true_eq] at h
  obtain ⟨⟨h1, -⟩, h3⟩ := h
  refine ⟨h1, ?_⟩
  have hne : w.isEmpty = false := by
    cases w with
    | nil => simp at h1
    | cons c cs => rfl
  rw [Bool.not_eq_true', Bool.and_eq_false_iff, hne] at h3
  rcases h3 with h3 | h3
  · simp at h3
  · rcases List.all_eq_false.1 h3 with ⟨c, hc, hcd⟩
    exact ⟨c, hc, Bool.not_eq_true _ ▸ (Bool.of_not_eq_true hcd)⟩

theorem getKeywords_long_nondigit_witness :
    ("alpha".toList) ∈ getKeywords ("alpha bravo".toList) ∧
    (3 < ("alpha".toList).length ∧ ∃ c ∈ ("alpha".toList), c.isDigit = false) :=
  ⟨by decide,
   getKeywords_long_nondigit ("alpha bravo".toList) ("alpha".toList) (by decide)⟩

/-- C8: text normalization is idempotent:
`normalize (normalize s) = normalize s` for every string `s`. -/
theorem normalize_idempotent (s : List Char) :
    normalize (normalize s) = normalize s := by
  have hWF2 : WFStr ((trimWs (s.map lowerChar)).filter
      (fun c => isWordChar c || isSpaceChar c)) := by
    intro c hc
    have h := (List.mem_filter.1 hc).2
    simpa [Bool.or_eq_true] using h
  have hstops : ∀ w ∈ normStopWords, w ≠ [] ∧ ∀ c ∈ w, isWordChar c = true := by
    decide
  have hts_eq := wordsOf_foldl_delTok normStopWords _ hstops hWF2
  generalize hT2 : (trimWs (s.map lowerChar)).filter
    (fun c => isWordChar c || isSpaceChar c) = t2 at hWF2 hts_eq
  generalize hT3 : normStopWords.foldl delTokRun t2 = t3 at hts_eq
  have hWF3 : WFStr t3 := by
    intro c hc
    rw [← hT3] at hc
    exact hWF2 c (mem_foldl_delTok _ _ hc)
  have h1 : ∀ w ∈ wordsOf t3, w ≠ [] ∧ ∀ c ∈ w, isSpaceChar c = false := by
    intro w hw
    obtain ⟨ha, hb⟩ := wordsOf_spec t3 w hw
    exact ⟨ha, fun c hc => (hb c hc).1⟩
  have h2 : ∀ w ∈ wordsOf t3, ∀ c ∈ w, isWordChar c = true := by
    intro w hw c hc
    obtain ⟨-, hb⟩ := wordsOf_spec t3 w hw
    rcases hWF3 c (hb c hc).2 with h | h
    · exact h
    · rw [(hb c hc).1] at h
      cases h
  have h3 : ∀ w ∈ wordsOf t3, ∀ c ∈ w, lowerChar c = c := by
    intro w hw c hc
    obtain ⟨-, hb⟩ := wordsOf_spec t3 w hw
    have hc3 : c ∈ t3 := (hb c hc).2
    rw [← hT3] at hc3
    have hc2 : c ∈ t2 := mem_foldl_delTok _ _ hc3
    rw [← hT2] at hc2
    have hcf : c ∈ trimWs (s.map lowerChar) := (List.mem_filter.1 hc2).1
    have hcm : c ∈ s.map lowerChar := mem_trimWs hcf
    obtain ⟨c0, -, rfl⟩ := List.mem_map.1 hcm
    exact lowerChar_idem c0
  have h4 : ∀ w ∈ wordsOf t3, w ∉ normStopWords := by
    intro w hw
    rw [hts_eq] at hw
    have := (List.mem_filter.1 hw).2
    simpa using this
  have hform : normalize s = joinWords (wordsOf t3) := by
    rw [← hT3, ← hT2]
    rfl
  rw [hform]
  exact normalize_canonical (wordsOf t3) h1 h2 h3 h4

/-- C9: for every emitted Arb the recorded cost and spread are those of the
same hedge, so they satisfy `cost + spread = 1` exactly. -/
theorem findArbitrage_cost_add_spread (ms : List Match) (a : Arb)
    (ha : a ∈ findArbitrage ms) : a.cost + a.spread = 1 := by
  obtain ⟨m, hm, hsome⟩ := mem_findArbitrage ha
  obtain ⟨hs, hc, -, -⟩ := arbOfMatch_some hsome
  rcases le_or_lt (spread2 m) (spread1 m) with h | h
  · rw [hc, if_pos h, hs, max_eq_left h, spread1]
    ring
  · rw [hc, if_neg (not_le.2 h), hs, max_eq_right (le_of_lt h), spread2]
    ring

theorem findArbitrage_cost_add_spread_witness :
    sampleArb ∈ findArbitrage [evalMatch] ∧ sampleArb.cost + sampleArb.spread = 1 :=
  ⟨sampleArb_mem, findArbitrage_cost_add_spread [evalMatch] sampleArb sampleArb_mem⟩

/-- C10: every emitted Arb's question is the first-80-character prefix of the
side-A listing's question. -/
theorem findArbitrage_question_from_sideA (ms : List Match) (a : Arb)
    (ha : a ∈ findArbitrage ms) :
    ∃ m ∈ ms, a.question = m.marketA.question.take 80 ∧ a.question.length ≤ 80 ∧
      a.question ++ m.marketA.question.drop 80 = m.marketA.question := by
  obtain ⟨m, hm, hsome⟩ := mem_findArbitrage ha
  obtain ⟨-, -, -, hq⟩ := arbOfMatch_some hsome
  refine ⟨m, hm, hq, ?_, ?_⟩
  · rw [hq, List.length_take]
    exact inf_le_left
  · rw [hq]
    exact List.take_append_drop 80 m.marketA.question

theorem findArbitrage_question_from_sideA_witness :
    sampleArb ∈ findArbitrage [evalMatch] ∧
    ∃ m ∈ [evalMatch], sampleArb.question = m.marketA.question.take 80 ∧
      sampleArb.question.length ≤ 80 ∧
      sampleArb.question ++ m.marketA.question.drop 80 = m.marketA.question :=
  ⟨sampleArb_mem, findArbitrage_question_from_sideA [evalMatch] sampleArb sampleArb_mem⟩

end ArbScan
